import Mathlib

/-!
Verification of the splice-junction extraction engine of fasta2spliced.py.

The development shallowly embeds the script's core logic:
motif token tables (left_tokens / right_tokens), the intron-boundary
scanner (addPositions and the per-intron scanning policy), the two-pointer
pairing sweep over the collected position lists, and the two sequence
emission modes (one record per junction, or joined synthetic contigs with
a provenance table).  Sequences are lists of characters, genomic offsets
are integers, and Python slice semantics (negative-index wrap-around and
clamping) are modelled explicitly by pySlice.
-/

namespace FastaSpliced

/-- Python slice index normalization: a negative index counts from the end
of the list (clamped at 0), a non-negative index is clamped at the
length. -/
def pyIdx (i : Int) (n : Nat) : Nat :=
  if i < 0 then ((n : Int) + i).toNat else min i.toNat n

/-- Python slice semantics with step 1. -/
def pySlice (s e : Int) (xs : List α) : List α :=
  (xs.drop (pyIdx s xs.length)).take (pyIdx e xs.length - pyIdx s xs.length)

/-- Token table: a Python dict from two-character motifs to class ids.
Insertion prepends, so List.lookup finds the most recent binding,
matching dict overwrite semantics. -/
abbrev Tok := List (String × Nat)

/-- Character complement for nucleotides. -/
def compChar (c : Char) : Char :=
  if c = 'A' then 'T' else if c = 'T' then 'A'
  else if c = 'G' then 'C' else if c = 'C' then 'G'
  else if c = 'a' then 't' else if c = 't' then 'a'
  else if c = 'g' then 'c' else if c = 'c' then 'g' else c

/-- Modelled from the spec: Genomics.complement is not under src; the spec
describes the paired motifs as reverse-complement equivalents, so the
complement of a motif is the reverse of its character-wise complement. -/
def complement (m : String) : String :=
  String.mk ((m.data.map compChar).reverse)

/-- One step of the token-table construction loop: for pair (a, b) at
running id x, assert both motifs have length 2, then record
left_tokens[a] = x, left_tokens[complement b] = x+1,
right_tokens[b] = x, right_tokens[complement a] = x+1, and continue
with x+2.  A failed assertion aborts the whole program. -/
def buildTokensGo (x : Nat) (lt rt : Tok) : List (String × String) → Except String (Tok × Tok)
  | [] => Except.ok (lt, rt)
  | (a, b) :: rest =>
    if a.length = 2 then
      if b.length = 2 then
        buildTokensGo (x + 2) ((complement b, x + 1) :: (a, x) :: lt)
          ((complement a, x + 1) :: (b, x) :: rt) rest
      else Except.error "only two-residue patterns allowed"
    else Except.error "only two-residue patterns allowed"

/-- Token-table construction from the configured splice pairs (source
lines 114-129), run before any contig is read. -/
def buildTokens (ps : List (String × String)) : Except String (Tok × Tok) :=
  buildTokensGo 0 [] [] ps

/-- The token tables as an optional pair, for concrete evaluation. -/
def tokensOf (ps : List (String × String)) : Option (Tok × Tok) :=
  (buildTokens ps).toOption

/-- Forward scan of a window: walk the extracted area left to right, look
every two-character substring up in the token table, and record
(offset, class id) for each hit; with the first flag set, stop at the
first hit and report success.  The integer argument is the genomic
offset of the head of the remaining area. -/
def scanFAux (tok : Tok) (first : Bool) : Int → List Char → List (Int × Nat) × Bool
  | _, [] => ([], false)
  | _, [_] => ([], false)
  | s, a :: b :: rest =>
    match List.lookup (String.mk [a, b]) tok with
    | some v =>
      if first then ([(s, v)], true)
      else
        let r := scanFAux tok first (s + 1) (b :: rest)
        ((s, v) :: r.1, r.2)
    | none => scanFAux tok first (s + 1) (b :: rest)

/-- The two-character substring of the area starting at index x. -/
def tokAt (area : List Char) (x : Nat) : String :=
  String.mk ((area.drop x).take 2)

/-- Backward scan of a window: indices from x down to 0; with the first
flag set, stop at the first (highest-offset) hit. -/
def scanB (tok : Tok) (first : Bool) (s : Int) (area : List Char) : Nat → List (Int × Nat) × Bool
  | 0 =>
    match List.lookup (tokAt area 0) tok with
    | some v => ([(s, v)], first)
    | none => ([], false)
  | x + 1 =>
    match List.lookup (tokAt area (x + 1)) tok with
    | some v =>
      if first then ([(s + (x + 1 : Nat), v)], true)
      else
        let r := scanB tok first s area x
        ((s + (x + 1 : Nat), v) :: r.1, r.2)
    | none => scanB tok first s area x

/-- addPositions of the source (lines 165-181): extract
sequence[start:end], uppercase it, and scan it forward or backward,
returning the recorded (offset, class id) pairs and whether an
early-return hit was found. -/
def addPositions (seq : List Char) (s e : Int) (tok : Tok) (forward first : Bool) :
    List (Int × Nat) × Bool :=
  let area := (pySlice s e seq).map Char.toUpper
  if forward then scanFAux tok first s area
  else if 2 ≤ area.length then scanB tok first s area (area.length - 2) else ([], false)

/-- All hits of a full forward scan of a window, in scan order. -/
def windowHits (seq : List Char) (s e : Int) (tok : Tok) : List (Int × Nat) :=
  (addPositions seq s e tok true false).1

/-- Left-boundary scanning policy for one intron start (source lines
186-189 and 195): with only_first, scan [is, is+sa) forward stopping at
the first hit, and only if that found nothing scan [is-sa, is) backward;
otherwise scan [is-sa, is+sa) forward exhaustively. -/
def scanIntronLeft (onlyFirst : Bool) (sa : Int) (seq : List Char) (lt : Tok) (is : Int) :
    List (Int × Nat) :=
  if onlyFirst then
    let f := addPositions seq is (is + sa) lt true true
    if f.2 then f.1 else f.1 ++ (addPositions seq (is - sa) is lt false true).1
  else (addPositions seq (is - sa) (is + sa) lt true false).1

/-- Right-boundary scanning policy for one intron end (source lines
191-192 and 196): mirrored, backward first under only_first. -/
def scanIntronRight (onlyFirst : Bool) (sa : Int) (seq : List Char) (rt : Tok) (ie : Int) :
    List (Int × Nat) :=
  if onlyFirst then
    let b := addPositions seq (ie - sa) ie rt false true
    if b.2 then b.1 else b.1 ++ (addPositions seq ie (ie + sa) rt true true).1
  else (addPositions seq (ie - sa) (ie + sa) rt true false).1

/-- The intron walk (source lines 183-197): the first intron starts at
the end of the first exon; each further exon (es, ee) closes an intron
at es and opens the next at ee. -/
def scanGo (onlyFirst : Bool) (sa : Int) (seq : List Char) (lt rt : Tok) :
    Int → List (Int × Int) → List (Int × Nat) × List (Int × Nat)
  | _, [] => ([], [])
  | is, (es, ee) :: rest =>
    let L := scanIntronLeft onlyFirst sa seq lt is
    let R := scanIntronRight onlyFirst sa seq rt es
    let p := scanGo onlyFirst sa seq lt rt ee rest
    (L ++ p.1, R ++ p.2)

/-- Python tuple comparison on intervals, as used by list.sort(). -/
def lexLe (a b : Int × Int) : Bool :=
  a.1 < b.1 || (a.1 == b.1 && a.2 ≤ b.2)

/-- Stable insertion used to model regions[contig].sort(). -/
def insertSorted (a : Int × Int) : List (Int × Int) → List (Int × Int)
  | [] => [a]
  | b :: l => if lexLe a b then a :: b :: l else b :: insertSorted a l

/-- Stable sort of the exon intervals of one contig. -/
def sortRegions : List (Int × Int) → List (Int × Int)
  | [] => []
  | a :: l => insertSorted a (sortRegions l)

/-- Per-contig boundary scan: sort the intervals, then walk the introns
collecting left and right candidate positions. -/
def scanContig (onlyFirst : Bool) (sa : Int) (seq : List Char) (lt rt : Tok)
    (regs : List (Int × Int)) : List (Int × Nat) × List (Int × Nat) :=
  match sortRegions regs with
  | [] => ([], [])
  | r0 :: rest => scanGo onlyFirst sa seq lt rt r0.2 rest

/-- One candidate pair emitted by the sweep: left offset and class, raw
(unadjusted) right offset and class. -/
structure CandPair where
  l : Int
  lcls : Nat
  r : Int
  rcls : Nat
deriving DecidableEq, Repr

/-- The inner collection loop of the sweep (source lines 213-250): from
the secondary cursor, take right positions while below the upper bound,
keeping those whose class id matches the left position. -/
def collect (upper : Int) (t : Nat) (l : Int) (rest : List (Int × Nat)) : List CandPair :=
  (rest.takeWhile fun rc => rc.1 < upper).filterMap fun rc =>
    if rc.2 = t then some ⟨l, t, rc.1, rc.2⟩ else none

/-- The outer sweep loop (source lines 206-217).  The persistent cursor ri
into right_positions is represented by the remaining suffix of the list:
the while loop advancing ri past offsets below l + min_intron_size is a
dropWhile on the suffix (it survives to the next left position), and the
secondary scan below l + max_intron_size is a takeWhile on its result. -/
def sweepGo (minI maxI : Int) : List (Int × Nat) → List (Int × Nat) → List CandPair
  | _, [] => []
  | rest, lp :: ls =>
    let rest2 := rest.dropWhile fun rc => rc.1 < lp.1 + minI
    collect (lp.1 + maxI) lp.2 lp.1 rest2 ++ sweepGo minI maxI rest2 ls

/-- The pairing sweep over one contig's position lists. -/
def pairSweep (minI maxI : Int) (lefts rights : List (Int × Nat)) : List CandPair :=
  sweepGo minI maxI rights lefts

/-- Configuration options relevant to the engine. -/
structure Config where
  splicePairs : List (String × String)
  minIntron : Int
  maxIntron : Int
  searchArea : Int
  readLength : Nat
  onlyFirst : Bool
  joined : Bool
  maxJoinLength : Nat
deriving DecidableEq, Repr

/-- All candidate pairs emitted for one contig: scan, then sweep. -/
def contigPairs (cfg : Config) (lt rt : Tok) (seq : List Char) (regs : List (Int × Int)) :
    List CandPair :=
  let sc := scanContig cfg.onlyFirst cfg.searchArea seq lt rt regs
  pairSweep cfg.minIntron cfg.maxIntron sc.1 sc.2

/-- The synthetic junction sequence of one accepted pair (source lines
217-219 and 232/243): with r the adjusted right end raw+2, the record is
sequence[lmin:l] + sequence[r:rmax] for lmin = max(0, l - read_length)
and rmax = min(contig_length, r + read_length). -/
def nonJoinedRecord (seq : List Char) (rl : Nat) (l rraw : Int) : List Char :=
  let r := rraw + 2
  let lmin := max 0 (l - (rl : Int))
  let rmax := min ((seq.length : Int)) (r + (rl : Int))
  pySlice lmin l seq ++ pySlice r rmax seq

/-- Events written to the sequence output stream: a synthetic-contig
header (joined mode), a sequence chunk of a given length followed by the
spacer (joined mode), or a standalone junction record (non-joined). -/
inductive OutEvent where
  | segHeader (n : Nat)
  | chunk (n : Nat)
  | fastaRec (contig : String) (lmin rend : Int) (s : List Char)
deriving DecidableEq, Repr

/-- Lines of the provenance (coords) table: the column header written at
startup, then one row per appended block. -/
inductive CoordEvent where
  | colHeader
  | row (seg : Nat) (pos : Nat) (contig : String) (lmin rend : Int)
deriving DecidableEq, Repr

/-- One block appended to a joined synthetic contig: its provenance data
and the length of the junction sequence. -/
structure Block where
  contig : String
  lmin : Int
  rend : Int
  blen : Nat
deriving DecidableEq, Repr

/-- A provenance row before rendering: synthetic contig id, offset within
it, and the appended block. -/
structure JRow where
  seg : Nat
  pos : Nat
  blk : Block
deriving DecidableEq, Repr

/-- Joined-mode accumulator, provenance side (source lines 229-240): each
block writes a row at the current offset; the running length grows by
block length plus spacer length, and when it exceeds max_join_length the
offset resets to 0 and a new synthetic contig id begins. -/
def joinRowsGo (sep maxJ : Nat) (seg nb : Nat) : List Block → List JRow
  | [] => []
  | b :: rest =>
    ⟨seg, nb, b⟩ ::
      (if maxJ < nb + b.blen + sep then joinRowsGo sep maxJ (seg + 1) 0 rest
       else joinRowsGo sep maxJ seg (nb + b.blen + sep) rest)

/-- Joined-mode accumulator, sequence-stream side: each block writes its
junction sequence plus the spacer; a rollover additionally writes the
next synthetic-contig header. -/
def joinStreamGo (sep maxJ : Nat) (seg nb : Nat) : List Block → List OutEvent
  | [] => []
  | b :: rest =>
    OutEvent.chunk (b.blen + sep) ::
      (if maxJ < nb + b.blen + sep then
        OutEvent.segHeader (seg + 1) :: joinStreamGo sep maxJ (seg + 1) 0 rest
       else joinStreamGo sep maxJ seg (nb + b.blen + sep) rest)

/-- Total chunk length attributed to synthetic contig s in an output
stream: headers switch the current contig, chunks accrue to it. -/
def segTotalGo (cur s : Nat) : List OutEvent → Nat
  | [] => 0
  | OutEvent.segHeader n :: rest => segTotalGo n s rest
  | OutEvent.chunk k :: rest => (if cur = s then k else 0) + segTotalGo cur s rest
  | OutEvent.fastaRec _ _ _ _ :: rest => segTotalGo cur s rest

/-- The blocks contributed by one contig, in emission order. -/
def blocksOfContig (cfg : Config) (lt rt : Tok) (contig : String) (seq : List Char)
    (regs : List (Int × Int)) : List Block :=
  (contigPairs cfg lt rt seq regs).map fun p =>
    ⟨contig, max 0 (p.l - (cfg.readLength : Int)), p.r + 2,
      (nonJoinedRecord seq cfg.readLength p.l p.r).length⟩

/-- All blocks of the whole run, in processing order: contigs in genome
order, those without region data skipped. -/
def allBlocks (cfg : Config) (lt rt : Tok) (genome : List (String × List Char))
    (regions : List (String × List (Int × Int))) : List Block :=
  genome.flatMap fun nsq =>
    match List.lookup nsq.1 regions with
    | none => []
    | some regs => blocksOfContig cfg lt rt nsq.1 nsq.2 regs

/-- The two output streams of a run. -/
structure RunOut where
  stdout : List OutEvent
  coords : List CoordEvent
deriving DecidableEq, Repr

/-- The whole program: build the token tables (aborting on a bad motif
before anything is written), then either emit joined synthetic contigs
with the provenance table (header of segment 1 and the coords column
header written up front), or one standalone record per accepted pair. -/
def run (cfg : Config) (genome : List (String × List Char))
    (regions : List (String × List (Int × Int))) : Except String RunOut :=
  match buildTokens cfg.splicePairs with
  | Except.error e => Except.error e
  | Except.ok (lt, rt) =>
    if cfg.joined then
      let bs := allBlocks cfg lt rt genome regions
      Except.ok
        ⟨OutEvent.segHeader 1 :: joinStreamGo cfg.readLength cfg.maxJoinLength 1 0 bs,
         CoordEvent.colHeader ::
           (joinRowsGo cfg.readLength cfg.maxJoinLength 1 0 bs).map fun jr =>
             CoordEvent.row jr.seg jr.pos jr.blk.contig jr.blk.lmin jr.blk.rend⟩
    else
      Except.ok
        ⟨genome.flatMap fun nsq =>
          match List.lookup nsq.1 regions with
          | none => []
          | some regs =>
            (contigPairs cfg lt rt nsq.2 regs).map fun p =>
              OutEvent.fastaRec nsq.1 (max 0 (p.l - (cfg.readLength : Int))) (p.r + 2)
                (nonJoinedRecord nsq.2 cfg.readLength p.l p.r),
         []⟩

/-- The left intron boundaries produced by the walk: the running
intron_start values, one per processed intron. -/
def lBounds : Int → List (Int × Int) → List Int
  | _, [] => []
  | is, (_, ee) :: rest => is :: lBounds ee rest

/-- The left boundaries of a contig's sorted region list. -/
def leftBoundaryList (regs : List (Int × Int)) : List Int :=
  match sortRegions regs with
  | [] => []
  | r0 :: rest => lBounds r0.2 rest

/-- The right intron boundaries: the start of every exon after the first,
in order. -/
def rightBoundaryList (regs : List (Int × Int)) : List Int :=
  match sortRegions regs with
  | [] => []
  | _ :: rest => rest.map fun p => p.1

/-! Concrete inputs used by counterexamples and witnesses. -/

/-- A filler character matching no motif. -/
def fil : Char := 'X'

/-- The token tables of the default configuration, as built by
buildTokens [("GT", "AG")]. -/
def defLT : Tok := [("CT", 1), ("GT", 0)]

/-- Right tables of the default configuration. -/
def defRT : Tok := [("AC", 1), ("AG", 0)]

/-- A 25-base contig with a donor motif at offset 8 and an acceptor motif
at offset 17. -/
def seq25 : List Char :=
  List.replicate 8 fil ++ ['G', 'T'] ++ List.replicate 7 fil ++ ['A', 'G'] ++
    List.replicate 6 fil

/-- Configuration with search_area 5, min_intron_size 2, max_intron_size
10, exhaustive scanning, non-joined output. -/
def cfgC1 : Config :=
  ⟨[("GT", "AG")], 2, 10, 5, 4, false, false, 1000000⟩

/-- A 30-base contig with a donor motif at offset 16 and acceptor motifs
at offsets 18 and 20, inside two overlapping right-boundary windows. -/
def seqC3 : List Char :=
  List.replicate 16 fil ++ ['G', 'T', 'A', 'G', 'A', 'G'] ++ List.replicate 8 fil

/-- Configuration with search_area 5, min_intron_size 3, max_intron_size
100. -/
def cfgC3 : Config :=
  ⟨[("GT", "AG")], 3, 100, 5, 4, false, false, 1000000⟩

/-- A 30-base contig with acceptor motifs at offsets 18 and 20 and no
donor motif. -/
def seqC4 : List Char :=
  List.replicate 18 fil ++ ['A', 'G', 'A', 'G'] ++ List.replicate 8 fil

/-- A 20-base contig starting with a donor motif. -/
def seq20 : List Char := ['G', 'T'] ++ List.replicate 18 fil

/-- The left-table insertions contributed by a pair list starting at
running id x, newest binding first. -/
def insL : List (String × String) → Nat → Tok
  | [], _ => []
  | (a, b) :: rest, x => insL rest (x + 2) ++ [(complement b, x + 1), (a, x)]

/-- The right-table insertions contributed by a pair list starting at
running id x, newest binding first. -/
def insR : List (String × String) → Nat → Tok
  | [], _ => []
  | (a, b) :: rest, x => insR rest (x + 2) ++ [(complement a, x + 1), (b, x)]

/-- The keys inserted into left_tokens, in insertion order. -/
def leftKeys (ps : List (String × String)) : List String :=
  ps.flatMap fun p => [p.1, complement p.2]

/-- The keys inserted into right_tokens, in insertion order. -/
def rightKeys (ps : List (String × String)) : List String :=
  ps.flatMap fun p => [p.2, complement p.1]

/-- A configuration with a three-symbol motif. -/
def cfgBad : Config :=
  ⟨[("GTA", "AG")], 30, 25000, 5, 32, false, false, 1000000⟩

/-- A joined-mode configuration with the default motif pair. -/
def cfgJ : Config :=
  ⟨[("GT", "AG")], 30, 25000, 5, 4, false, true, 1000000⟩

/-- A one-contig genome of ten filler bases. -/
def genomeW : List (String × List Char) := [("chr1", List.replicate 10 fil)]

/-- Regions for genomeW: two exons, one intron, no motif anywhere. -/
def regionsW : List (String × List (Int × Int)) := [("chr1", [(0, 2), (5, 7)])]

/-! Basic lemmas about the slice and scan primitives. -/

theorem pySlice_length_eq {α : Type} (xs : List α) {s e : Int} (h0 : 0 ≤ s) (h1 : s ≤ e)
    (h2 : e ≤ (xs.length : Int)) : ((pySlice s e xs).length : Int) = e - s := by
  unfold pySlice pyIdx
  simp only [List.length_take, List.length_drop]
  rw [if_neg (by omega), if_neg (by omega)]
  omega

theorem pySlice_length_le {α : Type} (xs : List α) {s e : Int} (h0 : 0 ≤ s) (h1 : 0 ≤ e) :
    (pySlice s e xs).length ≤ (e - s).toNat := by
  unfold pySlice pyIdx
  simp only [List.length_take, List.length_drop]
  rw [if_neg (by omega), if_neg (by omega)]
  omega

theorem scanFAux_mem (tok : Tok) (fst : Bool) :
    ∀ (l : List Char) (s : Int), ∀ p ∈ (scanFAux tok fst s l).1,
      s ≤ p.1 ∧ p.1 + 2 ≤ s + l.length := by
  intro l
  induction l with
  | nil => intro s p hp; simp [scanFAux] at hp
  | cons a tl ih =>
    cases tl with
    | nil => intro s p hp; simp [scanFAux] at hp
    | cons b rest =>
      intro s p hp
      rw [scanFAux] at hp
      cases hcase : List.lookup (String.mk [a, b]) tok with
      | some v =>
        rw [hcase] at hp
        cases fst with
        | true =>
          simp only [if_true] at hp
          have : p = (s, v) := by simpa using hp
          subst this
          simp only [List.length_cons]
          omega
        | false =>
          simp only [if_false] at hp
          rcases List.mem_cons.mp hp with h | h
          · subst h
            simp only [List.length_cons]
            omega
          · have := ih (s + 1) p h
            simp only [List.length_cons] at this ⊢
            omega
      | none =>
        rw [hcase] at hp
        have := ih (s + 1) p hp
        simp only [List.length_cons] at this ⊢
        omega

theorem scanFAux_sorted (tok : Tok) :
    ∀ (l : List Char) (s : Int),
      ((scanFAux tok false s l).1).Pairwise (fun p q => p.1 < q.1) := by
  intro l
  induction l with
  | nil => intro s; simp [scanFAux]
  | cons a tl ih =>
    cases tl with
    | nil => intro s; simp [scanFAux]
    | cons b rest =>
      intro s
      rw [scanFAux]
      cases hcase : List.lookup (String.mk [a, b]) tok with
      | some v =>
        simp only [if_false]
        refine List.Pairwise.cons ?_ (ih (s + 1))
        intro q hq
        have := scanFAux_mem tok false (b :: rest) (s + 1) q hq
        simp only
        omega
      | none => exact ih (s + 1)

theorem scanFAux_first (tok : Tok) :
    ∀ (l : List Char) (s : Int),
      scanFAux tok true s l =
        match (scanFAux tok false s l).1.head? with
        | some p => ([p], true)
        | none => ([], false) := by
  intro l
  induction l with
  | nil => intro s; simp [scanFAux]
  | cons a tl ih =>
    cases tl with
    | nil => intro s; simp [scanFAux]
    | cons b rest =>
      intro s
      rw [scanFAux, scanFAux]
      cases hcase : List.lookup (String.mk [a, b]) tok with
      | some v => simp
      | none => exact ih (s + 1)

theorem scanFAux_first_flag (tok : Tok) (l : List Char) (s : Int)
    (h : (scanFAux tok true s l).2 = false) : (scanFAux tok true s l).1 = [] := by
  rw [scanFAux_first] at h ⊢
  cases hh : (scanFAux tok false s l).1.head? with
  | some p => rw [hh] at h; simp at h
  | none => simp

theorem scanFAux_first_len (tok : Tok) (l : List Char) (s : Int) :
    (scanFAux tok true s l).1.length ≤ 1 := by
  rw [scanFAux_first]
  cases hh : (scanFAux tok false s l).1.head? with
  | some p => simp
  | none => simp

theorem scanB_mem (tok : Tok) (fst : Bool) (s : Int) (area : List Char) :
    ∀ (x : Nat), x + 2 ≤ area.length → ∀ p ∈ (scanB tok fst s area x).1,
      s ≤ p.1 ∧ p.1 + 2 ≤ s + area.length := by
  intro x
  induction x with
  | zero =>
    intro hx p hp
    rw [scanB] at hp
    cases hcase : List.lookup (tokAt area 0) tok with
    | some v =>
      rw [hcase] at hp
      have : p = (s, v) := by simpa using hp
      subst this
      simp only
      omega
    | none => rw [hcase] at hp; simp at hp
  | succ x ih =>
    intro hx p hp
    rw [scanB] at hp
    cases hcase : List.lookup (tokAt area (x + 1)) tok with
    | some v =>
      rw [hcase] at hp
      cases fst with
      | true =>
        simp only [if_true] at hp
        have : p = (s + ((x : Int) + 1), v) := by simpa using hp
        subst this
        simp only
        omega
      | false =>
        simp only [if_false] at hp
        rcases List.mem_cons.mp hp with h | h
        · subst h
          simp only
          omega
        · exact ih (by omega) p h
    | none =>
      rw [hcase] at hp
      exact ih (by omega) p hp

theorem scanB_first_shape (tok : Tok) (s : Int) (area : List Char) :
    ∀ x : Nat, (scanB tok true s area x).1.length ≤ 1 ∧
      ((scanB tok true s area x).2 = false → (scanB tok true s area x).1 = []) := by
  intro x
  induction x with
  | zero =>
    rw [scanB]
    cases hcase : List.lookup (tokAt area 0) tok with
    | some v => simp
    | none => simp
  | succ x ih =>
    rw [scanB]
    cases hcase : List.lookup (tokAt area (x + 1)) tok with
    | some v => simp
    | none => exact ih

theorem addPositions_bounds (seq : List Char) (tok : Tok) (fwd fst : Bool) {s e : Int}
    (h0 : 0 ≤ s) (h1 : s ≤ e) :
    ∀ p ∈ (addPositions seq s e tok fwd fst).1, s ≤ p.1 ∧ p.1 + 2 ≤ e := by
  intro p hp
  unfold addPositions at hp
  have hlen : (((pySlice s e seq).map Char.toUpper).length : Int) ≤ e - s := by
    rw [List.length_map]
    have := pySlice_length_le seq (s := s) (e := e) h0 (by omega)
    omega
  cases fwd with
  | true =>
    simp only [if_true] at hp
    have := scanFAux_mem tok fst _ s p hp
    omega
  | false =>
    simp only [if_false] at hp
    by_cases h2 : 2 ≤ ((pySlice s e seq).map Char.toUpper).length
    · rw [if_pos h2] at hp
      have := scanB_mem tok fst s _ (((pySlice s e seq).map Char.toUpper).length - 2)
        (by omega) p hp
      omega
    · rw [if_neg h2] at hp
      simp at hp

theorem pairwise_len_le_one {α : Type} {R : α → α → Prop} {l : List α} (h : l.length ≤ 1) :
    l.Pairwise R := by
  cases l with
  | nil => simp
  | cons a tl =>
    cases tl with
    | nil => simp
    | cons b t2 => simp at h

theorem pairwise_of_forall_mem {α : Type} {R : α → α → Prop} {l : List α}
    (h : ∀ a ∈ l, ∀ b ∈ l, R a b) : l.Pairwise R := by
  induction l with
  | nil => simp
  | cons a tl ih =>
    refine List.Pairwise.cons ?_ (ih ?_)
    · intro b hb
      exact h a (by simp) b (by simp [hb])
    · intro x hx y hy
      exact h x (by simp [hx]) y (by simp [hy])

theorem addPositions_fwd_first_flag (seq : List Char) (s e : Int) (tok : Tok)
    (h : (addPositions seq s e tok true true).2 = false) :
    (addPositions seq s e tok true true).1 = [] := by
  unfold addPositions at h ⊢
  simp only [if_true] at h ⊢
  exact scanFAux_first_flag tok _ s h

theorem addPositions_fwd_first_len (seq : List Char) (s e : Int) (tok : Tok) :
    (addPositions seq s e tok true true).1.length ≤ 1 := by
  unfold addPositions
  simp only [if_true]
  exact scanFAux_first_len tok _ s

theorem addPositions_bwd_first_len (seq : List Char) (s e : Int) (tok : Tok) :
    (addPositions seq s e tok false true).1.length ≤ 1 := by
  unfold addPositions
  simp only [if_false]
  by_cases h2 : 2 ≤ ((pySlice s e seq).map Char.toUpper).length
  · rw [if_pos h2]
    exact (scanB_first_shape tok s _ _).1
  · rw [if_neg h2]
    simp

theorem addPositions_bwd_first_flag (seq : List Char) (s e : Int) (tok : Tok)
    (h : (addPositions seq s e tok false true).2 = false) :
    (addPositions seq s e tok false true).1 = [] := by
  unfold addPositions at h ⊢
  simp only [if_false] at h ⊢
  by_cases h2 : 2 ≤ ((pySlice s e seq).map Char.toUpper).length
  · rw [if_pos h2] at h ⊢
    exact (scanB_first_shape tok s _ _).2 h
  · rw [if_neg h2]
    simp

theorem scanIntronLeft_bounds (ofr : Bool) (sa : Int) (seq : List Char) (lt : Tok) (is : Int)
    (h0 : 0 ≤ sa) (h1 : sa ≤ is) :
    ∀ p ∈ scanIntronLeft ofr sa seq lt is, is - sa ≤ p.1 ∧ p.1 + 2 ≤ is + sa := by
  intro p hp
  unfold scanIntronLeft at hp
  cases ofr with
  | true =>
    simp only [if_true] at hp
    by_cases hf : (addPositions seq is (is + sa) lt true true).2
    · rw [if_pos hf] at hp
      have := addPositions_bounds seq lt true true (s := is) (e := is + sa)
        (by omega) (by omega) p hp
      omega
    · rw [if_neg hf] at hp
      rcases List.mem_append.mp hp with h | h
      · have := addPositions_bounds seq lt true true (s := is) (e := is + sa)
          (by omega) (by omega) p h
        omega
      · have := addPositions_bounds seq lt false true (s := is - sa) (e := is)
          (by omega) (by omega) p h
        omega
  | false =>
    simp only [if_false] at hp
    have := addPositions_bounds seq lt true false (s := is - sa) (e := is + sa)
      (by omega) (by omega) p hp
    omega

theorem scanIntronRight_bounds (ofr : Bool) (sa : Int) (seq : List Char) (rt : Tok) (ie : Int)
    (h0 : 0 ≤ sa) (h1 : sa ≤ ie) :
    ∀ p ∈ scanIntronRight ofr sa seq rt ie, ie - sa ≤ p.1 ∧ p.1 + 2 ≤ ie + sa := by
  intro p hp
  unfold scanIntronRight at hp
  cases ofr with
  | true =>
    simp only [if_true] at hp
    by_cases hf : (addPositions seq (ie - sa) ie rt false true).2
    · rw [if_pos hf] at hp
      have := addPositions_bounds seq rt false true (s := ie - sa) (e := ie)
        (by omega) (by omega) p hp
      omega
    · rw [if_neg hf] at hp
      rcases List.mem_append.mp hp with h | h
      · have := addPositions_bounds seq rt false true (s := ie - sa) (e := ie)
          (by omega) (by omega) p h
        omega
      · have := addPositions_bounds seq rt true true (s := ie) (e := ie + sa)
          (by omega) (by omega) p h
        omega
  | false =>
    simp only [if_false] at hp
    have := addPositions_bounds seq rt true false (s := ie - sa) (e := ie + sa)
      (by omega) (by omega) p hp
    omega

theorem scanIntronLeft_pairwise (ofr : Bool) (sa : Int) (seq : List Char) (lt : Tok)
    (is : Int) : (scanIntronLeft ofr sa seq lt is).Pairwise fun p q => p.1 ≤ q.1 := by
  unfold scanIntronLeft
  cases ofr with
  | true =>
    simp only [if_true]
    by_cases hf : (addPositions seq is (is + sa) lt true true).2
    · rw [if_pos hf]
      exact pairwise_len_le_one (addPositions_fwd_first_len seq is (is + sa) lt)
    · rw [if_neg hf]
      rw [addPositions_fwd_first_flag seq is (is + sa) lt (by simpa using hf)]
      simp only [List.nil_append]
      exact pairwise_len_le_one (addPositions_bwd_first_len seq (is - sa) is lt)
  | false =>
    simp only [if_false]
    unfold addPositions
    simp only [if_true]
    exact (scanFAux_sorted lt _ (is - sa)).imp fun h => le_of_lt h

theorem scanIntronRight_pairwise (ofr : Bool) (sa : Int) (seq : List Char) (rt : Tok)
    (ie : Int) : (scanIntronRight ofr sa seq rt ie).Pairwise fun p q => p.1 ≤ q.1 := by
  unfold scanIntronRight
  cases ofr with
  | true =>
    simp only [if_true]
    by_cases hf : (addPositions seq (ie - sa) ie rt false true).2
    · rw [if_pos hf]
      exact pairwise_len_le_one (addPositions_bwd_first_len seq (ie - sa) ie rt)
    · rw [if_neg hf]
      rw [addPositions_bwd_first_flag seq (ie - sa) ie rt (by simpa using hf)]
      simp only [List.nil_append]
      exact pairwise_len_le_one (addPositions_fwd_first_len seq ie (ie + sa) rt)
  | false =>
    simp only [if_false]
    unfold addPositions
    simp only [if_true]
    exact (scanFAux_sorted rt _ (ie - sa)).imp fun h => le_of_lt h

theorem chain_sep_pairwise {sa : Int} (h0 : 0 ≤ sa) :
    ∀ l : List Int, List.Chain' (fun a b => a + 2 * sa ≤ b) l →
      l.Pairwise fun a b => a + 2 * sa ≤ b := by
  intro l
  induction l with
  | nil => simp
  | cons a tl ih =>
    intro hc
    rcases List.chain'_cons'.mp hc with ⟨hhead, htl⟩
    refine List.Pairwise.cons ?_ (ih htl)
    intro b hb
    cases tl with
    | nil => simp at hb
    | cons c t2 =>
      have hac : a + 2 * sa ≤ c := hhead c rfl
      rcases List.mem_cons.mp hb with h | h
      · subst h; omega
      · rcases List.pairwise_cons.mp (ih htl) with ⟨hc2, _⟩
        have := hc2 b h
        omega

theorem scanGo_left (ofr : Bool) (sa : Int) (seq : List Char) (lt rt : Tok) (h0 : 0 ≤ sa) :
    ∀ (rest : List (Int × Int)) (is : Int),
      (∀ b ∈ lBounds is rest, sa ≤ b) →
      (lBounds is rest).Pairwise (fun a b => a + 2 * sa ≤ b) →
      ((scanGo ofr sa seq lt rt is rest).1.Pairwise (fun p q => p.1 ≤ q.1) ∧
        ∀ p ∈ (scanGo ofr sa seq lt rt is rest).1,
          ∃ b ∈ lBounds is rest, b - sa ≤ p.1 ∧ p.1 + 2 ≤ b + sa) := by
  intro rest
  induction rest with
  | nil =>
    intro is _ _
    have hnil : scanGo ofr sa seq lt rt is [] = ([], []) := rfl
    rw [hnil]
    refine ⟨by simp, ?_⟩
    intro p hp
    simp at hp
  | cons hd tl ih =>
    intro is hb hpw
    obtain ⟨es, ee⟩ := hd
    have hbl : lBounds is ((es, ee) :: tl) = is :: lBounds ee tl := rfl
    rw [hbl] at hb hpw
    rcases List.pairwise_cons.mp hpw with ⟨hhd, htl⟩
    have hbtl : ∀ b ∈ lBounds ee tl, sa ≤ b := fun b h => hb b (by simp [h])
    have hsais : sa ≤ is := hb is (by simp)
    have IH := ih ee hbtl htl
    simp only [scanGo]
    constructor
    · rw [List.pairwise_append]
      refine ⟨scanIntronLeft_pairwise ofr sa seq lt is, IH.1, ?_⟩
      intro a ha b hbm
      have ha2 := scanIntronLeft_bounds ofr sa seq lt is h0 hsais a ha
      rcases IH.2 b hbm with ⟨bb, hbb, hlb, _⟩
      have := hhd bb hbb
      omega
    · intro p hp
      rcases List.mem_append.mp hp with h | h
      · exact ⟨is, by rw [hbl]; simp, by
          have := scanIntronLeft_bounds ofr sa seq lt is h0 hsais p h
          omega⟩
      · rcases IH.2 p h with ⟨bb, hbb, hlb, hub⟩
        exact ⟨bb, by rw [hbl]; simp [hbb], hlb, hub⟩

theorem scanGo_right (ofr : Bool) (sa : Int) (seq : List Char) (lt rt : Tok) (h0 : 0 ≤ sa) :
    ∀ (rest : List (Int × Int)) (is : Int),
      (∀ b ∈ rest.map (fun p => p.1), sa ≤ b) →
      (rest.map fun p => p.1).Pairwise (fun a b => a + 2 * sa ≤ b) →
      ((scanGo ofr sa seq lt rt is rest).2.Pairwise (fun p q => p.1 ≤ q.1) ∧
        ∀ p ∈ (scanGo ofr sa seq lt rt is rest).2,
          ∃ b ∈ rest.map (fun p => p.1), b - sa ≤ p.1 ∧ p.1 + 2 ≤ b + sa) := by
  intro rest
  induction rest with
  | nil =>
    intro is _ _
    have hnil : scanGo ofr sa seq lt rt is [] = ([], []) := rfl
    rw [hnil]
    refine ⟨by simp, ?_⟩
    intro p hp
    simp at hp
  | cons hd tl ih =>
    intro is hb hpw
    obtain ⟨es, ee⟩ := hd
    simp only [List.map_cons] at hb hpw
    rcases List.pairwise_cons.mp hpw with ⟨hhd, htl⟩
    have hbtl : ∀ b ∈ tl.map (fun p => p.1), sa ≤ b := fun b h => hb b (by simp [h])
    have hsaes : sa ≤ es := hb es (by simp)
    have IH := ih ee hbtl htl
    simp only [scanGo]
    constructor
    · rw [List.pairwise_append]
      refine ⟨scanIntronRight_pairwise ofr sa seq rt es, IH.1, ?_⟩
      intro a ha b hbm
      have ha2 := scanIntronRight_bounds ofr sa seq rt es h0 hsaes a ha
      rcases IH.2 b hbm with ⟨bb, hbb, hlb, _⟩
      have := hhd bb hbb
      omega
    · intro p hp
      rcases List.mem_append.mp hp with h | h
      · exact ⟨es, by simp, by
          have := scanIntronRight_bounds ofr sa seq rt es h0 hsaes p h
          omega⟩
      · rcases IH.2 p h with ⟨bb, hbb, hlb, hub⟩
        exact ⟨bb, by simp [hbb], hlb, hub⟩

/-! Lemmas about the pairing sweep. -/

theorem collect_mem {upper : Int} {t : Nat} {l : Int} {rest : List (Int × Nat)} {p : CandPair}
    (hp : p ∈ collect upper t l rest) :
    p.l = l ∧ p.lcls = t ∧ p.rcls = t ∧ p.r < upper ∧ (p.r, p.rcls) ∈ rest := by
  unfold collect at hp
  rcases List.mem_filterMap.mp hp with ⟨rc, hrc, heq⟩
  by_cases h : rc.2 = t
  · rw [if_pos h] at heq
    have hpe : p = ⟨l, t, rc.1, rc.2⟩ := by
      cases heq
      rfl
    subst hpe
    have hup : rc.1 < upper := by
      have := List.mem_takeWhile_imp hrc
      simpa using this
    refine ⟨rfl, rfl, h, hup, ?_⟩
    have hmem : rc ∈ rest := (List.takeWhile_sublist _).subset hrc
    simpa using hmem
  · rw [if_neg h] at heq
    cases heq

theorem dropWhile_lb {b : Int} :
    ∀ {l : List (Int × Nat)}, l.Pairwise (fun p q => p.1 ≤ q.1) →
      ∀ rc ∈ l.dropWhile (fun rc => rc.1 < b), b ≤ rc.1 := by
  intro l
  induction l with
  | nil => intro _ rc hrc; simp at hrc
  | cons a tl ih =>
    intro hs rc hrc
    rcases List.pairwise_cons.mp hs with ⟨ha, htl⟩
    rw [List.dropWhile_cons] at hrc
    by_cases h : a.1 < b
    · rw [if_pos (by simpa using h)] at hrc
      exact ih htl rc hrc
    · rw [if_neg (by simpa using h)] at hrc
      rcases List.mem_cons.mp hrc with he | he
      · subst he; omega
      · have := ha rc he
        omega

theorem sweepGo_mem {minI maxI : Int} :
    ∀ (lefts rest : List (Int × Nat)) (p : CandPair), p ∈ sweepGo minI maxI rest lefts →
      ∃ lp ∈ lefts, p.l = lp.1 ∧ p.lcls = lp.2 ∧ p.rcls = p.lcls ∧ p.r < p.l + maxI := by
  intro lefts
  induction lefts with
  | nil => intro rest p hp; simp [sweepGo] at hp
  | cons lp ls ih =>
    intro rest p hp
    rw [sweepGo] at hp
    rcases List.mem_append.mp hp with h | h
    · rcases collect_mem h with ⟨h1, h2, h3, h4, _⟩
      exact ⟨lp, by simp, h1, h2, by rw [h3, h2], by rw [h1]; exact h4⟩
    · rcases ih _ p h with ⟨lp2, hlp2, hrest⟩
      exact ⟨lp2, by simp [hlp2], hrest⟩

theorem sweepGo_lower {minI maxI : Int} :
    ∀ (lefts rest : List (Int × Nat)), rest.Pairwise (fun p q => p.1 ≤ q.1) →
      ∀ p ∈ sweepGo minI maxI rest lefts, p.l + minI ≤ p.r := by
  intro lefts
  induction lefts with
  | nil => intro rest _ p hp; simp [sweepGo] at hp
  | cons lp ls ih =>
    intro rest hs p hp
    rw [sweepGo] at hp
    have hs2 : (rest.dropWhile fun rc => rc.1 < lp.1 + minI).Pairwise
        (fun p q => p.1 ≤ q.1) := hs.sublist (List.dropWhile_sublist _)
    rcases List.mem_append.mp hp with h | h
    · rcases collect_mem h with ⟨h1, _, _, _, h5⟩
      have := dropWhile_lb hs _ h5
      omega
    · exact ih _ hs2 p h

theorem sweepGo_left_sorted {minI maxI : Int} :
    ∀ (lefts rest : List (Int × Nat)), lefts.Pairwise (fun p q => p.1 ≤ q.1) →
      (sweepGo minI maxI rest lefts).Pairwise fun a b => a.l ≤ b.l := by
  intro lefts
  induction lefts with
  | nil => intro rest _; simp [sweepGo]
  | cons lp ls ih =>
    intro rest hs
    rcases List.pairwise_cons.mp hs with ⟨hhd, htl⟩
    rw [sweepGo, List.pairwise_append]
    refine ⟨?_, ih _ htl, ?_⟩
    · refine pairwise_of_forall_mem ?_
      intro a ha b hb
      rcases collect_mem ha with ⟨ha1, _⟩
      rcases collect_mem hb with ⟨hb1, _⟩
      rw [ha1, hb1]
    · intro a ha b hb
      rcases collect_mem ha with ⟨ha1, _⟩
      rcases sweepGo_mem _ _ b hb with ⟨lp2, hlp2, hb1, _⟩
      have := hhd lp2 hlp2
      rw [ha1, hb1]
      exact this

/-! Claim C1. -/

/-- C1, counterexample: on a 25-base contig with exons (5,10) and (20,25),
donor motif at 8 and acceptor motif at 17, min_intron_size 2 and
max_intron_size 10, the sweep emits the pair (left 8, right 17), whose
adjusted intron span (17 + 2) - 8 = 11 is not below max_intron_size, so
the bound of the claim fails as stated. -/
theorem C1_cex :
    CandPair.mk 8 0 17 0 ∈ contigPairs cfgC1 defLT defRT seq25 [(5, 10), (20, 25)] ∧
    tokensOf cfgC1.splicePairs = some (defLT, defRT) ∧
    ¬ (((17 : Int) + 2) - 8 < cfgC1.maxIntron) := by
  exact ⟨by decide, by decide, by decide⟩

/-- C1, amended: for every CandidatePair emitted by the pairing sweep from
position lists whose right list is ascending by offset, the adjusted
intron span satisfies
min_intron_size + 2 <= (right.offset + 2) - left.offset < max_intron_size + 2;
the bounds are shifted by the motif length 2 because the sweep checks the
raw right offset against the bounds and only afterwards adjusts it. -/
theorem C1_amended (minI maxI : Int) (lefts rights : List (Int × Nat))
    (hs : rights.Pairwise fun p q => p.1 ≤ q.1) :
    ∀ p ∈ pairSweep minI maxI lefts rights,
      minI + 2 ≤ (p.r + 2) - p.l ∧ (p.r + 2) - p.l < maxI + 2 := by
  intro p hp
  unfold pairSweep at hp
  have h1 := sweepGo_lower lefts rights hs p hp
  rcases sweepGo_mem lefts rights p hp with ⟨lp, _, _, _, _, h2⟩
  omega

/-- C1, witness for the amended theorem at a concrete input. -/
theorem C1_witness :
    (2 : Int) + 2 ≤ ((5 : Int) + 2) - 0 ∧ ((5 : Int) + 2) - 0 < 10 + 2 := by
  have h := C1_amended 2 10 [(0, 0)] [(5, 0)] (by simp) (CandPair.mk 0 0 5 0) (by decide)
  exact h

/-! Claim C3. -/

/-- C3, counterexample: on a 30-base contig with exons (0,5), (20,21) and
(22,30), the two right-boundary windows [15,25) and [17,27) overlap and
both contain the acceptor motifs at 18 and 20, so right_positions is the
unsorted list [18, 20, 18, 20]; with min_intron_size 3 the sweep skips
the first 18, stops at 20, and then also emits the second 18, producing
the pair (left 16, right 18) which violates
left.offset + min_intron_size <= right.offset. -/
theorem C3_cex :
    CandPair.mk 16 0 18 0 ∈ contigPairs cfgC3 defLT defRT seqC3 [(0, 5), (20, 21), (22, 30)] ∧
    ¬ ((16 : Int) + cfgC3.minIntron ≤ 18) := by
  exact ⟨by decide, by decide⟩

/-- C3, amended: every CandidatePair emitted by the pairing sweep has
equal left and right class ids and satisfies
right.offset < left.offset + max_intron_size unconditionally; the lower
bound left.offset + min_intron_size <= right.offset additionally holds
whenever the right position list is ascending by offset (the cursor skip
only inspects a prefix, so an unsorted list can defeat it). -/
theorem C3_amended (minI maxI : Int) (lefts rights : List (Int × Nat)) :
    (∀ p ∈ pairSweep minI maxI lefts rights, p.lcls = p.rcls ∧ p.r < p.l + maxI) ∧
    ((rights.Pairwise fun p q => p.1 ≤ q.1) →
      ∀ p ∈ pairSweep minI maxI lefts rights, p.l + minI ≤ p.r) := by
  constructor
  · intro p hp
    unfold pairSweep at hp
    rcases sweepGo_mem lefts rights p hp with ⟨lp, _, _, _, h1, h2⟩
    exact ⟨h1.symm, h2⟩
  · intro hs p hp
    unfold pairSweep at hp
    exact sweepGo_lower lefts rights hs p hp

/-- C3, witness for the amended theorem at a concrete input. -/
theorem C3_witness :
    ((CandPair.mk 0 0 5 0).lcls = (CandPair.mk 0 0 5 0).rcls ∧
      (CandPair.mk 0 0 5 0).r < (CandPair.mk 0 0 5 0).l + 10) ∧
    (CandPair.mk 0 0 5 0).l + 2 ≤ (CandPair.mk 0 0 5 0).r := by
  have h := C3_amended 2 10 [(0, 0)] [(5, 0)]
  exact ⟨h.1 (CandPair.mk 0 0 5 0) (by decide), h.2 (by simp) (CandPair.mk 0 0 5 0) (by decide)⟩

/-! Claim C4. -/

/-- C4, counterexample: with sorted exon intervals (0,5), (20,21), (22,30)
and search_area 5, the two right-boundary windows overlap and each
acceptor motif at 18 and 20 is recorded twice, so right_positions is
[18, 20, 18, 20], which is not in ascending offset order. -/
theorem C4_cex :
    ¬ ((scanContig false 5 seqC4 defLT defRT [(0, 5), (20, 21), (22, 30)]).2.Pairwise
        fun p q => p.1 ≤ q.1) := by
  decide

/-- C4, amended: for every contig whose sorted exon intervals place every
intron boundary at least search_area inside the contig start and any two
consecutive same-side boundaries at least 2 * search_area apart (so that
scan windows on the same side cannot overlap), the left and right
position lists are in ascending offset order and the CandidatePairs are
emitted in non-decreasing left-offset order; when windows overlap the
lists can interleave, as the counterexample shows. -/
theorem C4_amended (ofr : Bool) (sa minI maxI : Int) (seq : List Char) (lt rt : Tok)
    (regs : List (Int × Int)) (h0 : 0 ≤ sa)
    (hl1 : ∀ b ∈ leftBoundaryList regs, sa ≤ b)
    (hl2 : List.Chain' (fun a b => a + 2 * sa ≤ b) (leftBoundaryList regs))
    (hr1 : ∀ b ∈ rightBoundaryList regs, sa ≤ b)
    (hr2 : List.Chain' (fun a b => a + 2 * sa ≤ b) (rightBoundaryList regs)) :
    ((scanContig ofr sa seq lt rt regs).1.Pairwise fun p q => p.1 ≤ q.1) ∧
    ((scanContig ofr sa seq lt rt regs).2.Pairwise fun p q => p.1 ≤ q.1) ∧
    ((pairSweep minI maxI (scanContig ofr sa seq lt rt regs).1
        (scanContig ofr sa seq lt rt regs).2).Pairwise fun a b => a.l ≤ b.l) := by
  unfold scanContig
  unfold leftBoundaryList at hl1 hl2
  unfold rightBoundaryList at hr1 hr2
  cases hsr : sortRegions regs with
  | nil =>
    refine ⟨by simp, by simp, ?_⟩
    unfold pairSweep
    simp [sweepGo]
  | cons r0 rest =>
    rw [hsr] at hl1 hl2 hr1 hr2
    dsimp only at hl1 hl2 hr1 hr2 ⊢
    have hL := scanGo_left ofr sa seq lt rt h0 rest r0.2 hl1 (chain_sep_pairwise h0 _ hl2)
    have hR := scanGo_right ofr sa seq lt rt h0 rest r0.2 hr1 (chain_sep_pairwise h0 _ hr2)
    refine ⟨hL.1, hR.1, ?_⟩
    unfold pairSweep
    exact sweepGo_left_sorted _ _ hL.1

/-- C4, witness for the amended theorem at a concrete input. -/
theorem C4_witness :
    ((scanContig false 5 seq25 defLT defRT [(0, 10), (30, 40)]).1.Pairwise
        fun p q => p.1 ≤ q.1) ∧
    ((scanContig false 5 seq25 defLT defRT [(0, 10), (30, 40)]).2.Pairwise
        fun p q => p.1 ≤ q.1) ∧
    ((pairSweep 2 10 (scanContig false 5 seq25 defLT defRT [(0, 10), (30, 40)]).1
        (scanContig false 5 seq25 defLT defRT [(0, 10), (30, 40)]).2).Pairwise
        fun a b => a.l ≤ b.l) := by
  have e1 : leftBoundaryList [(0, 10), (30, 40)] = [10] := rfl
  have e2 : rightBoundaryList [(0, 10), (30, 40)] = [30] := rfl
  refine C4_amended false 5 2 10 seq25 defLT defRT [(0, 10), (30, 40)] (by decide) ?_ ?_ ?_ ?_
  · rw [e1]
    intro b hb
    simp at hb
    omega
  · rw [e1]
    exact List.chain'_singleton _
  · rw [e2]
    intro b hb
    simp at hb
    omega
  · rw [e2]
    exact List.chain'_singleton _

/-! Claim C8. -/

theorem pySlice_clip {α : Type} (xs : List α) {s e : Int} (h0 : 0 ≤ s)
    (h1 : (xs.length : Int) ≤ e) : pySlice s e xs = pySlice s (xs.length) xs := by
  unfold pySlice pyIdx
  rw [if_neg (by omega : ¬ s < 0), if_neg (by omega : ¬ e < 0),
    if_neg (by omega : ¬ ((xs.length : Int)) < 0)]
  have h2 : min e.toNat xs.length = min ((xs.length : Int)).toNat xs.length := by omega
  rw [h2]

theorem pySlice_neg_nil {α : Type} (xs : List α) {s e : Int} (hs : s < 0) (h0 : 0 ≤ e)
    (h1 : e ≤ (xs.length : Int) + s) : pySlice s e xs = [] := by
  unfold pySlice pyIdx
  rw [if_pos hs, if_neg (by omega : ¬ e < 0)]
  have h2 : min e.toNat xs.length - ((xs.length : Int) + s).toNat = 0 := by omega
  rw [h2]
  simp

theorem addPositions_clip (seq : List Char) (tok : Tok) (fwd fst : Bool) {s e : Int}
    (h0 : 0 ≤ s) (h1 : (seq.length : Int) ≤ e) :
    addPositions seq s e tok fwd fst = addPositions seq s (seq.length) tok fwd fst := by
  unfold addPositions
  rw [pySlice_clip seq h0 h1]

theorem addPositions_neg_nil (seq : List Char) (tok : Tok) (fwd fst : Bool) {s e : Int}
    (hs : s < 0) (h0 : 0 ≤ e) (h1 : e ≤ (seq.length : Int) + s) :
    addPositions seq s e tok fwd fst = ([], false) := by
  unfold addPositions
  rw [pySlice_neg_nil seq hs h0 h1]
  cases fwd with
  | true => simp [scanFAux]
  | false => simp

/-- C8, counterexample: on a 20-base contig whose first two bases are a
donor motif, the window [-2, 8) is not scanned as the clipped window
[0, 8): Python wraps the negative start to offset 18, the slice [18, 8)
is empty, and no position is recorded, whereas the clipped scan records
the motif at offset 0.  The claim is false as stated. -/
theorem C8_cex :
    addPositions seq20 (-2) 8 defLT true false ≠ addPositions seq20 0 8 defLT true false := by
  decide

/-- C8, amended: scanning a boundary window never raises an error; a
window extending past the contig length behaves as if clipped to
[start, contig_length), but a window reaching below offset 0 is NOT
clipped to [0, end): its start wraps Python-style to
contig_length + start, and whenever end <= contig_length + start the
scan sees an empty area and records no position at all. -/
theorem C8_amended :
    (∀ (seq : List Char) (tok : Tok) (fwd fst : Bool) (s e : Int), 0 ≤ s →
      (seq.length : Int) ≤ e →
      addPositions seq s e tok fwd fst = addPositions seq s (seq.length) tok fwd fst) ∧
    (∀ (seq : List Char) (tok : Tok) (fwd fst : Bool) (s e : Int), s < 0 → 0 ≤ e →
      e ≤ (seq.length : Int) + s → addPositions seq s e tok fwd fst = ([], false)) := by
  constructor
  · intro seq tok fwd fst s e h0 h1
    exact addPositions_clip seq tok fwd fst h0 h1
  · intro seq tok fwd fst s e hs h0 h1
    exact addPositions_neg_nil seq tok fwd fst hs h0 h1

/-- C8, witness for the amended theorem at concrete inputs. -/
theorem C8_witness :
    addPositions seq20 0 25 defLT true false = addPositions seq20 0 20 defLT true false ∧
    addPositions seq20 (-2) 8 defLT true false = ([], false) := by
  constructor
  · have h := C8_amended.1 seq20 defLT true false 0 25 (by decide) (by decide)
    simpa using h
  · exact C8_amended.2 seq20 defLT true false (-2) 8 (by decide) (by decide) (by decide)

/-! Claim C6. -/

/-- C6: for every non-joined output record whose flanks are not clipped
by the contig edges (the left flank start l - read_length is at offset 0
or later, the right flank raw + 2 + read_length ends at or before the
contig end, and the motifs lie inside the contig so l + 2 <= length and
raw >= 0), the emitted sequence sequence[lmin:l] + sequence[r:rmax] has
length exactly 2 * read_length. -/
theorem C6_flank_length (seq : List Char) (rl : Nat) (l rraw : Int)
    (h1 : 0 ≤ l - (rl : Int)) (h2 : l + 2 ≤ (seq.length : Int)) (h3 : 0 ≤ rraw)
    (h4 : rraw + 2 + (rl : Int) ≤ (seq.length : Int)) :
    (nonJoinedRecord seq rl l rraw).length = 2 * rl := by
  unfold nonJoinedRecord
  rw [List.length_append]
  have hmax : max 0 (l - (rl : Int)) = l - (rl : Int) := by omega
  have hmin : min ((seq.length : Int)) (rraw + 2 + (rl : Int)) = rraw + 2 + (rl : Int) := by
    omega
  rw [hmax, hmin]
  have e1 := pySlice_length_eq seq (s := l - (rl : Int)) (e := l) (by omega) (by omega)
    (by omega)
  have e2 := pySlice_length_eq seq (s := rraw + 2) (e := rraw + 2 + (rl : Int)) (by omega)
    (by omega) (by omega)
  omega

/-- C6, witness at a concrete record. -/
theorem C6_witness : (nonJoinedRecord seq25 4 8 10).length = 2 * 4 := by
  exact C6_flank_length seq25 4 8 10 (by decide) (by decide) (by decide) (by decide)

/-! Claim C5: characterization of the only-first scanning policy. -/

theorem scanFAux_short (tok : Tok) (fst : Bool) (s : Int) {l : List Char}
    (h : l.length < 2) : scanFAux tok fst s l = ([], false) := by
  cases l with
  | nil => rfl
  | cons a tl =>
    cases tl with
    | nil => rfl
    | cons b t2 =>
      exact absurd h (by simp)

theorem scanFAux_concat (tok : Tok) :
    ∀ (l : List Char) (s : Int) (d : Char),
      (scanFAux tok false s (l ++ [d])).1 =
        (scanFAux tok false s l).1 ++
          (match l.getLast? with
           | none => []
           | some c =>
             ((List.lookup (String.mk [c, d]) tok).map
               fun v => (s + (l.length : Int) - 1, v)).toList) := by
  intro l
  induction l with
  | nil =>
    intro s d
    simp [scanFAux]
  | cons a tl ih =>
    cases tl with
    | nil =>
      intro s d
      show (scanFAux tok false s [a, d]).1 = _
      rw [scanFAux]
      cases hcase : List.lookup (String.mk [a, d]) tok with
      | some v => simp [scanFAux, hcase]
      | none => simp [scanFAux, hcase]
    | cons b t2 =>
      intro s d
      show (scanFAux tok false s (a :: b :: (t2 ++ [d]))).1 = _
      rw [scanFAux]
      conv_rhs => rw [scanFAux]
      have hlast : (a :: b :: t2).getLast? = (b :: t2).getLast? := by
        simp [List.getLast?_cons_cons]
      have hlen : s + ((a :: b :: t2).length : Int) - 1 =
          (s + 1) + ((b :: t2).length : Int) - 1 := by
        simp
        omega
      cases hcase : List.lookup (String.mk [a, b]) tok with
      | some v =>
        show (s, v) :: (scanFAux tok false (s + 1) ((b :: t2) ++ [d])).1 =
          ((s, v) :: (scanFAux tok false (s + 1) (b :: t2)).1) ++ _
        rw [ih (s + 1) d, hlast, hlen, List.cons_append]
      | none =>
        show (scanFAux tok false (s + 1) ((b :: t2) ++ [d])).1 = _
        rw [ih (s + 1) d, hlast, hlen]

theorem scanB_first_getLast (tok : Tok) (s : Int) (area : List Char) :
    ∀ x : Nat, x + 2 ≤ area.length →
      scanB tok true s area x =
        match (scanFAux tok false s (area.take (x + 2))).1.getLast? with
        | some p => ([p], true)
        | none => ([], false) := by
  intro x
  induction x with
  | zero =>
    intro hx
    cases area with
    | nil => simp at hx
    | cons a tl =>
      cases tl with
      | nil => simp at hx
      | cons b t2 =>
        show scanB tok true s (a :: b :: t2) 0 = _
        rw [scanB]
        have ht : tokAt (a :: b :: t2) 0 = String.mk [a, b] := by
          simp [tokAt]
        rw [ht]
        have htake : (a :: b :: t2).take 2 = [a, b] := by simp
        rw [htake]
        cases hcase : List.lookup (String.mk [a, b]) tok with
        | some v => simp [scanFAux, hcase]
        | none => simp [scanFAux, hcase]
  | succ x ih =>
    intro hx
    have hx2 : x + 2 < area.length := by omega
    have hx1 : x + 1 < area.length := by omega
    have htake3 : area.take (x + 1 + 2) = area.take (x + 2) ++ [area[x + 2]] := by
      rw [List.take_succ]
      simp [List.getElem?_eq_getElem hx2]
    have htakelast : (area.take (x + 2)).getLast? = some area[x + 1] := by
      have h1 : area.take (x + 2) = area.take (x + 1) ++ [area[x + 1]] := by
        rw [List.take_succ]
        simp [List.getElem?_eq_getElem hx1]
      rw [h1, List.getLast?_concat]
    have hx2b : x + 1 + 1 < area.length := by omega
    have htok : tokAt area (x + 1) = String.mk [area[x + 1], area[x + 2]] := by
      unfold tokAt
      congr 1
      rw [List.drop_eq_getElem_cons hx1, List.drop_eq_getElem_cons hx2b]
      rfl
    have hlen : s + ((area.take (x + 2)).length : Int) - 1 = s + ((x : Int) + 1) := by
      rw [List.length_take]
      have : min (x + 2) area.length = x + 2 := by omega
      rw [this]
      push_cast
      ring
    rw [scanB, htok, htake3, scanFAux_concat tok _ s (area[x + 2]), htakelast]
    dsimp only
    cases hcase : List.lookup (String.mk [area[x + 1], area[x + 2]]) tok with
    | some v =>
      simp only [Option.map_some', Option.toList_some]
      rw [List.getLast?_concat]
      simp only [hlen]
      push_cast
      simp
    | none =>
      simp only [Option.map_none', Option.toList_none, List.append_nil]
      exact ih (by omega)

theorem addPositions_fwd_first_eq (seq : List Char) (s e : Int) (tok : Tok) :
    addPositions seq s e tok true true =
      match (addPositions seq s e tok true false).1.head? with
      | some p => ([p], true)
      | none => ([], false) := by
  unfold addPositions
  simp only [if_true]
  exact scanFAux_first tok _ s

theorem addPositions_bwd_first_eq (seq : List Char) (s e : Int) (tok : Tok) :
    addPositions seq s e tok false true =
      match (addPositions seq s e tok true false).1.getLast? with
      | some p => ([p], true)
      | none => ([], false) := by
  unfold addPositions
  simp only [Bool.false_eq_true, if_false, if_true]
  by_cases h2 : 2 ≤ ((pySlice s e seq).map Char.toUpper).length
  · rw [if_pos h2]
    have := scanB_first_getLast tok s ((pySlice s e seq).map Char.toUpper)
      (((pySlice s e seq).map Char.toUpper).length - 2) (by omega)
    rw [this]
    have htake : ((pySlice s e seq).map Char.toUpper).take
        (((pySlice s e seq).map Char.toUpper).length - 2 + 2) =
        (pySlice s e seq).map Char.toUpper := by
      apply List.take_of_length_le
      omega
    rw [htake]
  · rw [if_neg h2]
    rw [scanFAux_short tok false s (by omega)]
    simp

/-- C5: when only_first is set, each intron records at most one left and
at most one right position, and the policy is exactly as claimed: the
left boundary takes the first hit of the forward window
[intron_start, intron_start + search_area), falling back to the last
(backward-first) hit of [intron_start - search_area, intron_start) only
when the forward window has no hit; the right boundary mirrors this,
backward window first, then the forward window. -/
theorem C5_only_first (sa : Int) (seq : List Char) (lt rt : Tok) (is ie : Int) :
    (scanIntronLeft true sa seq lt is =
      match (windowHits seq is (is + sa) lt).head? with
      | some p => [p]
      | none => ((windowHits seq (is - sa) is lt).getLast?).toList) ∧
    (scanIntronRight true sa seq rt ie =
      match (windowHits seq (ie - sa) ie rt).getLast? with
      | some p => [p]
      | none => ((windowHits seq ie (ie + sa) rt).head?).toList) ∧
    (scanIntronLeft true sa seq lt is).length ≤ 1 ∧
    (scanIntronRight true sa seq rt ie).length ≤ 1 := by
  have hleft : scanIntronLeft true sa seq lt is =
      match (windowHits seq is (is + sa) lt).head? with
      | some p => [p]
      | none => ((windowHits seq (is - sa) is lt).getLast?).toList := by
    unfold scanIntronLeft windowHits
    simp only [if_true]
    rw [addPositions_fwd_first_eq]
    cases hh : (addPositions seq is (is + sa) lt true false).1.head? with
    | some p => simp
    | none =>
      simp only
      rw [addPositions_bwd_first_eq]
      cases hg : (addPositions seq (is - sa) is lt true false).1.getLast? with
      | some p => simp
      | none => simp
  have hright : scanIntronRight true sa seq rt ie =
      match (windowHits seq (ie - sa) ie rt).getLast? with
      | some p => [p]
      | none => ((windowHits seq ie (ie + sa) rt).head?).toList := by
    unfold scanIntronRight windowHits
    simp only [if_true]
    rw [addPositions_bwd_first_eq]
    cases hh : (addPositions seq (ie - sa) ie rt true false).1.getLast? with
    | some p => simp
    | none =>
      simp only
      rw [addPositions_fwd_first_eq]
      cases hg : (addPositions seq ie (ie + sa) rt true false).1.head? with
      | some p => simp
      | none => simp
  refine ⟨hleft, hright, ?_, ?_⟩
  · rw [hleft]
    cases hh : (windowHits seq is (is + sa) lt).head? with
    | some p => simp
    | none =>
      cases hg : (windowHits seq (is - sa) is lt).getLast? with
      | some p => simp
      | none => simp
  · rw [hright]
    cases hh : (windowHits seq (ie - sa) ie rt).getLast? with
    | some p => simp
    | none =>
      cases hg : (windowHits seq ie (ie + sa) rt).head? with
      | some p => simp
      | none => simp

/-! Claim C2: class ids in the token tables. -/

theorem buildTokensGo_ok :
    ∀ (ps : List (String × String)) (x : Nat) (lt0 rt0 lt rt : Tok),
      buildTokensGo x lt0 rt0 ps = Except.ok (lt, rt) →
      lt = insL ps x ++ lt0 ∧ rt = insR ps x ++ rt0 := by
  intro ps
  induction ps with
  | nil =>
    intro x lt0 rt0 lt rt h
    rw [buildTokensGo] at h
    cases h
    simp [insL, insR]
  | cons hd rest ih =>
    intro x lt0 rt0 lt rt h
    obtain ⟨a, b⟩ := hd
    rw [buildTokensGo] at h
    by_cases ha : a.length = 2
    · rw [if_pos ha] at h
      by_cases hb : b.length = 2
      · rw [if_pos hb] at h
        rcases ih (x + 2) _ _ lt rt h with ⟨h1, h2⟩
        constructor
        · rw [h1]
          show _ = (insL rest (x + 2) ++ [(complement b, x + 1), (a, x)]) ++ lt0
          rw [List.append_assoc]
          rfl
        · rw [h2]
          show _ = (insR rest (x + 2) ++ [(complement a, x + 1), (b, x)]) ++ rt0
          rw [List.append_assoc]
          rfl
      · rw [if_neg hb] at h
        cases h
    · rw [if_neg ha] at h
      cases h

theorem lookup_append_of_not_mem {β : Type} {k : String} {l1 l2 : List (String × β)}
    (h : k ∉ l1.map Prod.fst) : List.lookup k (l1 ++ l2) = List.lookup k l2 := by
  induction l1 with
  | nil => simp
  | cons hd rest ih =>
    have hk : ¬ k = hd.1 := by
      intro he
      exact h (by simp [he])
    have hr : k ∉ rest.map Prod.fst := by
      intro he
      exact h (by simp [he])
    obtain ⟨k2, v⟩ := hd
    have hbeq : (k == k2) = false := by simpa using hk
    show (match k == k2 with
      | true => some v
      | false => List.lookup k (rest ++ l2)) = List.lookup k l2
    rw [hbeq]
    exact ih hr

theorem mem_insL_keys :
    ∀ (ps : List (String × String)) (x : Nat) (k : String),
      k ∈ (insL ps x).map Prod.fst ↔ k ∈ leftKeys ps := by
  intro ps
  induction ps with
  | nil => intro x k; simp [insL, leftKeys]
  | cons hd rest ih =>
    intro x k
    obtain ⟨a, b⟩ := hd
    have hkeys : leftKeys ((a, b) :: rest) = a :: complement b :: leftKeys rest := by
      unfold leftKeys
      simp [List.flatMap_cons]
    show k ∈ (insL rest (x + 2) ++ [(complement b, x + 1), (a, x)]).map Prod.fst ↔ _
    rw [hkeys, List.map_append, List.mem_append, ih (x + 2) k]
    simp only [List.mem_cons, List.map_cons, List.map_nil, List.not_mem_nil, or_false]
    tauto

theorem mem_insR_keys :
    ∀ (ps : List (String × String)) (x : Nat) (k : String),
      k ∈ (insR ps x).map Prod.fst ↔ k ∈ rightKeys ps := by
  intro ps
  induction ps with
  | nil => intro x k; simp [insR, rightKeys]
  | cons hd rest ih =>
    intro x k
    obtain ⟨a, b⟩ := hd
    have hkeys : rightKeys ((a, b) :: rest) = b :: complement a :: rightKeys rest := by
      unfold rightKeys
      simp [List.flatMap_cons]
    show k ∈ (insR rest (x + 2) ++ [(complement a, x + 1), (b, x)]).map Prod.fst ↔ _
    rw [hkeys, List.map_append, List.mem_append, ih (x + 2) k]
    simp only [List.mem_cons, List.map_cons, List.map_nil, List.not_mem_nil, or_false]
    tauto

theorem insL_lookup :
    ∀ (ps : List (String × String)) (x : Nat) (z : Tok), (leftKeys ps).Nodup →
      ∀ (k : Nat) (hk : k < ps.length),
        List.lookup (ps.get ⟨k, hk⟩).1 (insL ps x ++ z) = some (x + 2 * k) ∧
        List.lookup (complement (ps.get ⟨k, hk⟩).2) (insL ps x ++ z) = some (x + 2 * k + 1) := by
  intro ps
  induction ps with
  | nil =>
    intro x z _ k hk
    simp at hk
  | cons hd rest ih =>
    intro x z hnd k hk
    obtain ⟨a, b⟩ := hd
    have hkeys : leftKeys ((a, b) :: rest) = a :: complement b :: leftKeys rest := by
      unfold leftKeys
      simp [List.flatMap_cons]
    rw [hkeys] at hnd
    rcases List.nodup_cons.mp hnd with ⟨hna, hnd2⟩
    rcases List.nodup_cons.mp hnd2 with ⟨hncb, hnd3⟩
    have hassoc : insL ((a, b) :: rest) x ++ z =
        insL rest (x + 2) ++ ((complement b, x + 1) :: (a, x) :: z) := by
      show (insL rest (x + 2) ++ [(complement b, x + 1), (a, x)]) ++ z = _
      rw [List.append_assoc]
      rfl
    cases k with
    | zero =>
      have hget0 : ((a, b) :: rest).get ⟨0, hk⟩ = (a, b) := rfl
      rw [hget0, hassoc]
      have hamem : a ∉ (insL rest (x + 2)).map Prod.fst := by
        rw [mem_insL_keys]
        intro hc
        exact hna (by simp [hc])
      have hcbmem : complement b ∉ (insL rest (x + 2)).map Prod.fst := by
        rw [mem_insL_keys]
        intro hc
        exact hncb hc
      have hacb : ¬ a = complement b := by
        intro he
        exact hna (by simp [he])
      constructor
      · rw [lookup_append_of_not_mem hamem]
        have hne : (a == complement b) = false := by simpa using hacb
        simp [List.lookup_cons, hne]
      · rw [lookup_append_of_not_mem hcbmem]
        simp [List.lookup_cons]
    | succ j =>
      have hj : j < rest.length := by simpa using hk
      have hget : ((a, b) :: rest).get ⟨j + 1, hk⟩ = rest.get ⟨j, hj⟩ := rfl
      rw [hget, hassoc]
      rcases ih (x + 2) ((complement b, x + 1) :: (a, x) :: z) hnd3 j hj with ⟨h1, h2⟩
      constructor
      · rw [h1]
        congr 1
        omega
      · rw [h2]
        congr 1
        omega

theorem insR_lookup :
    ∀ (ps : List (String × String)) (x : Nat) (z : Tok), (rightKeys ps).Nodup →
      ∀ (k : Nat) (hk : k < ps.length),
        List.lookup (ps.get ⟨k, hk⟩).2 (insR ps x ++ z) = some (x + 2 * k) ∧
        List.lookup (complement (ps.get ⟨k, hk⟩).1) (insR ps x ++ z) = some (x + 2 * k + 1) := by
  intro ps
  induction ps with
  | nil =>
    intro x z _ k hk
    simp at hk
  | cons hd rest ih =>
    intro x z hnd k hk
    obtain ⟨a, b⟩ := hd
    have hkeys : rightKeys ((a, b) :: rest) = b :: complement a :: rightKeys rest := by
      unfold rightKeys
      simp [List.flatMap_cons]
    rw [hkeys] at hnd
    rcases List.nodup_cons.mp hnd with ⟨hna, hnd2⟩
    rcases List.nodup_cons.mp hnd2 with ⟨hncb, hnd3⟩
    have hassoc : insR ((a, b) :: rest) x ++ z =
        insR rest (x + 2) ++ ((complement a, x + 1) :: (b, x) :: z) := by
      show (insR rest (x + 2) ++ [(complement a, x + 1), (b, x)]) ++ z = _
      rw [List.append_assoc]
      rfl
    cases k with
    | zero =>
      have hget0 : ((a, b) :: rest).get ⟨0, hk⟩ = (a, b) := rfl
      rw [hget0, hassoc]
      have hamem : b ∉ (insR rest (x + 2)).map Prod.fst := by
        rw [mem_insR_keys]
        intro hc
        exact hna (by simp [hc])
      have hcbmem : complement a ∉ (insR rest (x + 2)).map Prod.fst := by
        rw [mem_insR_keys]
        intro hc
        exact hncb hc
      have hacb : ¬ b = complement a := by
        intro he
        exact hna (by simp [he])
      constructor
      · rw [lookup_append_of_not_mem hamem]
        have hne : (b == complement a) = false := by simpa using hacb
        simp [List.lookup_cons, hne]
      · rw [lookup_append_of_not_mem hcbmem]
        simp [List.lookup_cons]
    | succ j =>
      have hj : j < rest.length := by simpa using hk
      have hget : ((a, b) :: rest).get ⟨j + 1, hk⟩ = rest.get ⟨j, hj⟩ := rfl
      rw [hget, hassoc]
      rcases ih (x + 2) ((complement a, x + 1) :: (b, x) :: z) hnd3 j hj with ⟨h1, h2⟩
      constructor
      · rw [h1]
        congr 1
        omega
      · rw [h2]
        congr 1
        omega

/-- C2, counterexample: in the default configuration the donor motif GT
receives class id 0 in left_tokens while the complement CT of the
acceptor motif AG receives class id 1, so the two class ids are NOT
equal as the claim states. -/
theorem C2_cex :
    tokensOf [("GT", "AG")] = some (defLT, defRT) ∧
    List.lookup "GT" defLT = some 0 ∧
    List.lookup (complement "AG") defLT = some 1 ∧
    List.lookup "GT" defLT ≠ List.lookup (complement "AG") defLT := by
  exact ⟨by decide, by decide, by decide, by decide⟩

/-- C2, amended: for every configured motif pair index k (with the
inserted keys pairwise distinct so no dict entry is overwritten), the
donor motif maps to class id 2k and the complement of the acceptor motif
to class id 2k+1 in left_tokens, and symmetrically the acceptor maps to
2k and the complement of the donor to 2k+1 in right_tokens; the two ids
within one table differ by one rather than being equal. -/
theorem C2_amended (ps : List (String × String)) (lt rt : Tok)
    (hok : buildTokens ps = Except.ok (lt, rt))
    (hL : (leftKeys ps).Nodup) (hR : (rightKeys ps).Nodup) :
    ∀ (k : Nat) (hk : k < ps.length),
      List.lookup (ps.get ⟨k, hk⟩).1 lt = some (2 * k) ∧
      List.lookup (complement (ps.get ⟨k, hk⟩).2) lt = some (2 * k + 1) ∧
      List.lookup (ps.get ⟨k, hk⟩).2 rt = some (2 * k) ∧
      List.lookup (complement (ps.get ⟨k, hk⟩).1) rt = some (2 * k + 1) := by
  intro k hk
  rcases buildTokensGo_ok ps 0 [] [] lt rt hok with ⟨h1, h2⟩
  rcases insL_lookup ps 0 [] hL k hk with ⟨hl1, hl2⟩
  rcases insR_lookup ps 0 [] hR k hk with ⟨hr1, hr2⟩
  rw [h1, h2]
  refine ⟨?_, ?_, ?_, ?_⟩
  · rw [hl1]
    congr 1
    omega
  · rw [hl2]
    congr 1
    omega
  · rw [hr1]
    congr 1
    omega
  · rw [hr2]
    congr 1
    omega

/-- C2, witness for the amended theorem at the default configuration. -/
theorem C2_witness :
    List.lookup "GT" defLT = some (2 * 0) ∧
    List.lookup (complement "AG") defLT = some (2 * 0 + 1) ∧
    List.lookup "AG" defRT = some (2 * 0) ∧
    List.lookup (complement "GT") defRT = some (2 * 0 + 1) := by
  have h := C2_amended [("GT", "AG")] defLT defRT rfl (by decide) (by decide) 0 (by decide)
  exact h

/-! Claim C9: motif length assertion. -/

theorem buildTokensGo_error :
    ∀ (ps : List (String × String)) (x : Nat) (lt rt : Tok),
      (∃ p ∈ ps, p.1.length ≠ 2 ∨ p.2.length ≠ 2) →
      ∃ msg, buildTokensGo x lt rt ps = Except.error msg := by
  intro ps
  induction ps with
  | nil =>
    intro x lt rt h
    rcases h with ⟨p, hp, _⟩
    simp at hp
  | cons hd rest ih =>
    intro x lt rt h
    obtain ⟨a, b⟩ := hd
    by_cases ha : a.length = 2
    · by_cases hb : b.length = 2
      · rcases h with ⟨p, hp, hbad⟩
        rcases List.mem_cons.mp hp with he | he
        · subst he
          simp only at hbad
          rcases hbad with h1 | h1
          · exact absurd ha h1
          · exact absurd hb h1
        · rw [buildTokensGo, if_pos ha, if_pos hb]
          exact ih (x + 2) _ _ ⟨p, he, hbad⟩
      · refine ⟨"only two-residue patterns allowed", ?_⟩
        rw [buildTokensGo, if_pos ha, if_neg hb]
    · refine ⟨"only two-residue patterns allowed", ?_⟩
      rw [buildTokensGo, if_neg ha]

theorem buildTokensGo_ok_exists :
    ∀ (ps : List (String × String)) (x : Nat) (lt rt : Tok),
      (∀ p ∈ ps, p.1.length = 2 ∧ p.2.length = 2) →
      ∃ lt2 rt2, buildTokensGo x lt rt ps = Except.ok (lt2, rt2) := by
  intro ps
  induction ps with
  | nil =>
    intro x lt rt _
    exact ⟨lt, rt, rfl⟩
  | cons hd rest ih =>
    intro x lt rt h
    obtain ⟨a, b⟩ := hd
    have hh := h (a, b) (by simp)
    rw [buildTokensGo, if_pos hh.1, if_pos hh.2]
    exact ih (x + 2) _ _ fun p hp => h p (by simp [hp])

/-- C9: if any configured motif pair contains a motif whose length is not
exactly 2, the run fails during token-table construction and produces no
output at all (the result is an error, carrying no output streams, and
the token tables are built before the contig loop and before the
joined-mode headers are written); with all motifs of length 2 this
failure branch is unreachable and the run returns an output. -/
theorem C9_motif_length (cfg : Config) (genome : List (String × List Char))
    (regions : List (String × List (Int × Int))) :
    ((∃ p ∈ cfg.splicePairs, p.1.length ≠ 2 ∨ p.2.length ≠ 2) →
      ∃ msg, run cfg genome regions = Except.error msg) ∧
    ((∀ p ∈ cfg.splicePairs, p.1.length = 2 ∧ p.2.length = 2) →
      ∃ o, run cfg genome regions = Except.ok o) := by
  constructor
  · intro hbad
    rcases buildTokensGo_error cfg.splicePairs 0 [] [] hbad with ⟨msg, hmsg⟩
    refine ⟨msg, ?_⟩
    unfold run buildTokens
    rw [hmsg]
  · intro hgood
    rcases buildTokensGo_ok_exists cfg.splicePairs 0 [] [] hgood with ⟨lt, rt, hok⟩
    by_cases hj : cfg.joined = true
    · refine ⟨⟨OutEvent.segHeader 1 ::
          joinStreamGo cfg.readLength cfg.maxJoinLength 1 0
            (allBlocks cfg lt rt genome regions),
        CoordEvent.colHeader ::
          (joinRowsGo cfg.readLength cfg.maxJoinLength 1 0
              (allBlocks cfg lt rt genome regions)).map fun jr =>
            CoordEvent.row jr.seg jr.pos jr.blk.contig jr.blk.lmin jr.blk.rend⟩, ?_⟩
      unfold run buildTokens
      rw [hok]
      dsimp only
      rw [if_pos hj]
    · refine ⟨⟨genome.flatMap fun nsq =>
          match List.lookup nsq.1 regions with
          | none => []
          | some regs =>
            (contigPairs cfg lt rt nsq.2 regs).map fun p =>
              OutEvent.fastaRec nsq.1 (max 0 (p.l - (cfg.readLength : Int))) (p.r + 2)
                (nonJoinedRecord nsq.2 cfg.readLength p.l p.r),
        []⟩, ?_⟩
      unfold run buildTokens
      rw [hok]
      dsimp only
      rw [if_neg hj]

/-- C9, witness: a three-symbol donor motif makes the run fail, and the
default configuration runs to completion. -/
theorem C9_witness :
    (∃ msg, run cfgBad [] [] = Except.error msg) ∧
    (∃ o, run cfgC1 [] [] = Except.ok o) := by
  constructor
  · exact (C9_motif_length cfgBad [] []).1 ⟨("GTA", "AG"), by simp [cfgBad], by decide⟩
  · exact (C9_motif_length cfgC1 [] []).2 (by decide)

/-! Claim C10: joined-mode initialisation. -/

theorem allBlocks_nil (cfg : Config) (lt rt : Tok)
    (regions : List (String × List (Int × Int))) :
    ∀ genome : List (String × List Char),
      (∀ nsq ∈ genome, ∀ regs, List.lookup nsq.1 regions = some regs →
        contigPairs cfg lt rt nsq.2 regs = []) →
      allBlocks cfg lt rt genome regions = [] := by
  intro genome
  induction genome with
  | nil => intro _; rfl
  | cons g gs ih =>
    intro h
    unfold allBlocks
    rw [List.flatMap_cons]
    have h1 : (match List.lookup g.1 regions with
        | none => []
        | some regs => blocksOfContig cfg lt rt g.1 g.2 regs) = ([] : List Block) := by
      cases hl : List.lookup g.1 regions with
      | none => rfl
      | some regs =>
        show blocksOfContig cfg lt rt g.1 g.2 regs = []
        unfold blocksOfContig
        rw [h g (by simp) regs hl]
        rfl
    rw [h1]
    have h2 := ih fun nsq hn regs hl => h nsq (by simp [hn]) regs hl
    unfold allBlocks at h2
    rw [List.nil_append]
    exact h2

/-- C10: in joined mode the header of the first synthetic contig and the
column-header line of the provenance table are written before any contig
is processed, so when zero candidate pairs are found across all contigs
the sequence output consists of exactly that one synthetic-contig header
with no sequence and the provenance table of exactly its column-header
line. -/
theorem C10_joined_init (cfg : Config) (genome : List (String × List Char))
    (regions : List (String × List (Int × Int))) (lt rt : Tok)
    (hj : cfg.joined = true)
    (hok : buildTokens cfg.splicePairs = Except.ok (lt, rt))
    (hnp : ∀ nsq ∈ genome, ∀ regs, List.lookup nsq.1 regions = some regs →
      contigPairs cfg lt rt nsq.2 regs = []) :
    run cfg genome regions =
      Except.ok ⟨[OutEvent.segHeader 1], [CoordEvent.colHeader]⟩ := by
  have hblocks := allBlocks_nil cfg lt rt regions genome hnp
  unfold run
  rw [hok]
  simp only [hj, if_true, hblocks, joinStreamGo, joinRowsGo, List.map_nil]

/-- C10, witness: a genome with one motif-free contig under joined mode
produces exactly the initial synthetic header and the provenance column
header. -/
theorem C10_witness :
    run cfgJ genomeW regionsW =
      Except.ok ⟨[OutEvent.segHeader 1], [CoordEvent.colHeader]⟩ := by
  refine C10_joined_init cfgJ genomeW regionsW defLT defRT rfl rfl ?_
  intro nsq hnsq regs hregs
  have hn : nsq = ("chr1", List.replicate 10 fil) := by
    simpa [genomeW] using hnsq
  subst hn
  have hr : some [((0 : Int), (2 : Int)), (5, 7)] = some regs := by
    rw [← hregs]
    rfl
  cases hr
  decide

/-! Claim C7: the joined-mode accumulator invariant. -/

theorem joinRowsGo_head (sep maxJ : Nat) :
    ∀ (bs : List Block) (seg nb : Nat) (r : JRow),
      (joinRowsGo sep maxJ seg nb bs).head? = some r → r.seg = seg ∧ r.pos = nb := by
  intro bs seg nb r h
  cases bs with
  | nil => simp [joinRowsGo] at h
  | cons b rest =>
    rw [joinRowsGo] at h
    rw [List.head?_cons] at h
    cases h
    exact ⟨rfl, rfl⟩

theorem joinRowsGo_chain (sep maxJ : Nat) :
    ∀ (bs : List Block) (seg nb : Nat),
      List.Chain' (fun r1 r2 =>
        if maxJ < r1.pos + r1.blk.blen + sep then r2.seg = r1.seg + 1 ∧ r2.pos = 0
        else r2.seg = r1.seg ∧ r2.pos = r1.pos + r1.blk.blen + sep)
        (joinRowsGo sep maxJ seg nb bs) := by
  intro bs
  induction bs with
  | nil => intro seg nb; simp [joinRowsGo]
  | cons b rest ih =>
    intro seg nb
    rw [joinRowsGo, List.chain'_cons']
    constructor
    · intro r2 hr2
      by_cases hroll : maxJ < nb + b.blen + sep
      · rw [if_pos hroll] at hr2
        have := joinRowsGo_head sep maxJ rest (seg + 1) 0 r2 hr2
        show if maxJ < nb + b.blen + sep then _ ∧ _ else _ ∧ _
        rw [if_pos hroll]
        exact this
      · rw [if_neg hroll] at hr2
        have := joinRowsGo_head sep maxJ rest seg (nb + b.blen + sep) r2 hr2
        show if maxJ < nb + b.blen + sep then _ ∧ _ else _ ∧ _
        rw [if_neg hroll]
        exact this
    · by_cases hroll : maxJ < nb + b.blen + sep
      · rw [if_pos hroll]
        exact ih (seg + 1) 0
      · rw [if_neg hroll]
        exact ih seg (nb + b.blen + sep)

theorem joinGo_segTotal (sep maxJ : Nat) :
    ∀ (bs : List Block) (seg nb s : Nat),
      segTotalGo seg s (joinStreamGo sep maxJ seg nb bs) =
        (((joinRowsGo sep maxJ seg nb bs).filter fun r => r.seg == s).map
          (fun r => r.blk.blen + sep)).sum := by
  intro bs
  induction bs with
  | nil => intro seg nb s; simp [joinStreamGo, joinRowsGo, segTotalGo]
  | cons b rest ih =>
    intro seg nb s
    rw [joinStreamGo, joinRowsGo]
    by_cases hroll : maxJ < nb + b.blen + sep
    · rw [if_pos hroll, if_pos hroll]
      rw [segTotalGo, segTotalGo]
      rw [List.filter_cons]
      by_cases hseg : seg = s
      · rw [if_pos hseg]
        have hc : ((JRow.mk seg nb b).seg == s) = true := by simp [hseg]
        rw [if_pos hc, List.map_cons, List.sum_cons, ih (seg + 1) 0 s]
      · rw [if_neg hseg]
        have hc : ¬ ((JRow.mk seg nb b).seg == s) = true := by simp [hseg]
        rw [if_neg hc, ih (seg + 1) 0 s]
        omega
    · rw [if_neg hroll, if_neg hroll]
      rw [segTotalGo]
      rw [List.filter_cons]
      by_cases hseg : seg = s
      · rw [if_pos hseg]
        have hc : ((JRow.mk seg nb b).seg == s) = true := by simp [hseg]
        rw [if_pos hc, List.map_cons, List.sum_cons, ih seg (nb + b.blen + sep) s]
      · rw [if_neg hseg]
        have hc : ¬ ((JRow.mk seg nb b).seg == s) = true := by simp [hseg]
        rw [if_neg hc, ih seg (nb + b.blen + sep) s]
        omega

/-- C7: in joined mode the accumulator keeps the claimed invariant.  The
first provenance row (if any) carries synthetic contig id 1 and offset
0; from each row to the next, the offset advances by the block length
plus the spacer length, except that when the advanced length exceeds
max_join_length the synthetic contig id increments and the offset resets
to 0 (rows are written before their block, so a row's pos is the total
length of the previously appended blocks and spacers of its contig); and
for every synthetic contig id, the chunk lengths of the sequence stream
attributed to it reconstruct exactly the sum of its provenance-row spans
plus spacer lengths. -/
theorem C7_join_invariant (sep maxJ : Nat) (bs : List Block) :
    (∀ r, (joinRowsGo sep maxJ 1 0 bs).head? = some r → r.seg = 1 ∧ r.pos = 0) ∧
    List.Chain' (fun r1 r2 =>
      if maxJ < r1.pos + r1.blk.blen + sep then r2.seg = r1.seg + 1 ∧ r2.pos = 0
      else r2.seg = r1.seg ∧ r2.pos = r1.pos + r1.blk.blen + sep)
      (joinRowsGo sep maxJ 1 0 bs) ∧
    (∀ s, segTotalGo 0 s (OutEvent.segHeader 1 :: joinStreamGo sep maxJ 1 0 bs) =
      (((joinRowsGo sep maxJ 1 0 bs).filter fun r => r.seg == s).map
        (fun r => r.blk.blen + sep)).sum) := by
  refine ⟨fun r h => joinRowsGo_head sep maxJ bs 1 0 r h,
    joinRowsGo_chain sep maxJ bs 1 0, fun s => ?_⟩
  show segTotalGo 1 s (joinStreamGo sep maxJ 1 0 bs) = _
  exact joinGo_segTotal sep maxJ bs 1 0 s

/-- C7, witness: the head-row condition discharged on a concrete block
list (three blocks, rollover after the second). -/
theorem C7_witness :
    (JRow.mk 1 0 (Block.mk "c" 0 6 4)).seg = 1 ∧ (JRow.mk 1 0 (Block.mk "c" 0 6 4)).pos = 0 := by
  exact (C7_join_invariant 2 10
    [Block.mk "c" 0 6 4, Block.mk "c" 5 11 4, Block.mk "c" 0 4 1]).1
    (JRow.mk 1 0 (Block.mk "c" 0 6 4)) rfl

end FastaSpliced
